import Mathlib

/-!
Verification of the Tabular Catalog Reconciliation Engine of the dashboard
repository.  The definitions below are a shallow embedding translated from
the reconciliation logic in `src/app/dashboard/page.tsx` and from the
delivery-zone safe-replace route in
`src/app/api/restaurants/.../delivery-zones/route.ts`.

Modelling conventions:
* JavaScript strings are Lean `String` values (manipulated through their
  character lists so that every regex-style transformation is an explicit
  recursive function);
* JavaScript numbers are `Option ℚ`, where `none` stands for a non-finite
  number (`NaN`, `±Infinity`); `Number.isFinite x` becomes `x.isSome`;
* the whitespace class of the source regexes is modelled by ASCII
  whitespace and `toLowerCase` by ASCII lowercasing (`Char.toLower`);
* `Number(string)` is modelled for plain decimal literals (optional sign,
  digits, optional fraction); exponent/hex forms are not modelled — none of
  the verified properties depends on them;
* JSON values loaded from the store are a `JValue` inductive; member access
  on a JSON `null` raises a `TypeError` in JavaScript, modelled by
  `Except Unit` with `.error ()` as the thrown exception.
-/

namespace Dashboard

/-- ASCII part of the JS regex whitespace class used by the source regexes. -/
def isWs (c : Char) : Bool :=
  c = ' ' || c = '\t' || c = '\n' || c = '\r' || c = '\x0b' || c = '\x0c'

/-- Replace every maximal run of characters satisfying `p` by the single
character `rep` (the shape of the JS `replace` calls on run patterns such
as whitespace runs or non-alphanumeric runs). -/
def collapseRuns (p : Char → Bool) (rep : Char) : List Char → List Char
  | [] => []
  | [c] => if p c then [rep] else [c]
  | c1 :: c2 :: cs =>
    if p c1 then
      if p c2 then collapseRuns p rep (c2 :: cs)
      else rep :: collapseRuns p rep (c2 :: cs)
    else c1 :: collapseRuns p rep (c2 :: cs)

/-- Drop leading and trailing characters satisfying `p`. -/
def dropEnds (p : Char → Bool) (l : List Char) : List Char :=
  ((l.dropWhile p).reverse.dropWhile p).reverse

/-- Characters removed by JS `String.prototype.trim`. -/
def trimChars (l : List Char) : List Char := dropEnds isWs l

/-- JS `s.trim()`. -/
def jsTrim (s : String) : String := ⟨trimChars s.data⟩

/-- `normalizeText` from the dashboard page applied to an already-string
value: collapse internal whitespace runs to single spaces, then trim. -/
def normalizeText (s : String) : String := ⟨trimChars (collapseRuns isWs ' ' s.data)⟩

/-- `normalizeCategory` from the dashboard page: squash/trim whitespace and
fall back to the sentinel group name when the result is empty. -/
def normalizeCategory (s : String) : String :=
  let trimmed := ⟨trimChars (collapseRuns isWs ' ' s.data)⟩
  if trimmed = "" then "Uncategorized" else trimmed

/-- Strip a leading byte-order marker (the BOM regex of `normalizeHeader`). -/
def stripBOM : List Char → List Char
  | '﻿' :: cs => cs
  | cs => cs

/-- `normalizeHeader` from the dashboard page: strip BOM, trim, lowercase,
and collapse whitespace/hyphen runs to a single underscore. -/
def normalizeHeader (s : String) : String :=
  ⟨collapseRuns (fun c => isWs c || c = '-') '_'
    ((trimChars (stripBOM s.data)).map Char.toLower)⟩

/-- Characters kept by the slug regex (lowercase ASCII letters, digits). -/
def isSlugKeep (c : Char) : Bool :=
  ('a' ≤ c && c ≤ 'z') || ('0' ≤ c && c ≤ '9')

/-- `slugify` from the dashboard page: lowercase, replace runs of
non-alphanumeric characters with a single hyphen, strip leading/trailing
hyphens; an empty result becomes the literal token `item`. -/
def slugify (s : String) : String :=
  let core := dropEnds (fun c => c = '-')
    (collapseRuns (fun c => !isSlugKeep c) '-' (s.data.map Char.toLower))
  if core = [] then "item" else ⟨core⟩

/-- Decimal digit character (only used with arguments below 10). -/
def digitChar : Nat → Char
  | 0 => '0' | 1 => '1' | 2 => '2' | 3 => '3' | 4 => '4'
  | 5 => '5' | 6 => '6' | 7 => '7' | 8 => '8' | _ => '9'

/-- Fuel-based helper for `natDigits` (structural recursion so that the
kernel can evaluate it; the fuel is always sufficient). -/
def natDigitsAux : Nat → Nat → List Char
  | 0, _ => []
  | fuel + 1, n =>
    if n < 10 then [digitChar n]
    else natDigitsAux fuel (n / 10) ++ [digitChar (n % 10)]

/-- Decimal digit list of a natural number (JS number-to-string on naturals,
as produced by the template literal building synthesized ids). -/
def natDigits (n : Nat) : List Char := natDigitsAux (n + 1) n

/-- JS rendering of a natural number. -/
def natToString (n : Nat) : String := ⟨natDigits n⟩

/-- JS rendering of an integer. -/
def intToString (i : Int) : String :=
  if i < 0 then "-" ++ natToString i.natAbs else natToString i.toNat

/-- Numeric value of a decimal digit character. -/
def digitVal (c : Char) : Nat := c.toNat - 48

/-- Value of a digit list read in base 10. -/
def digitsToNat (l : List Char) : Nat := l.foldl (fun a c => 10 * a + digitVal c) 0

/-- Unsigned decimal literal part of JS `Number(string)`:
`digits`, `digits.digits`, `digits.`, or `.digits`. -/
def parseDecCore (l : List Char) : Option ℚ :=
  let ip := l.takeWhile Char.isDigit
  let rest := l.dropWhile Char.isDigit
  match rest with
  | [] => if ip = [] then none else some (digitsToNat ip)
  | '.' :: fp =>
    if fp.all Char.isDigit ∧ (ip ≠ [] ∨ fp ≠ []) then
      some ((digitsToNat ip : ℚ) + (digitsToNat fp : ℚ) / ((10 : ℚ) ^ fp.length))
    else none
  | _ => none

/-- JS `Number(string)` (decimal literals; `none` models `NaN`).
The empty/whitespace-only string converts to `0`. -/
def jsStrToNum (s : String) : Option ℚ :=
  let t := trimChars s.data
  if t = [] then some 0
  else match t with
    | '-' :: rest => (parseDecCore rest).map (fun q => -q)
    | '+' :: rest => parseDecCore rest
    | _ => parseDecCore t

/-- `parsePrice` from the dashboard page: normalize the text, return the
`null` sentinel on an empty cell, otherwise strip every character except
digits, dots and minus signs and convert with `Number`; a non-finite result
is the `null` sentinel (`none`). -/
def parsePrice (v : String) : Option ℚ :=
  let raw := normalizeText v
  if raw = "" then none
  else jsStrToNum ⟨raw.data.filter (fun c => c.isDigit || c = '.' || c = '-')⟩

/-- Flat editable menu row (`MenuRow` in the dashboard page). -/
structure MenuRow where
  id : String
  category : String
  name : String
  price : Option ℚ
  description : Option String
deriving DecidableEq, Repr, Inhabited

/-- Canonical menu item (`MenuItem` in the dashboard page). -/
structure MenuItem where
  id : String
  name : String
  price : Option ℚ
  description : Option String
deriving DecidableEq, Repr, Inhabited

/-- Canonical menu group (`MenuCategory` in the dashboard page). -/
structure MenuCategory where
  name : String
  items : List MenuItem
deriving DecidableEq, Repr, Inhabited

/-- The `description?.trim() || undefined` idiom: a present description is
trimmed, and an empty or absent one becomes `undefined`. -/
def normDesc : Option String → Option String
  | none => none
  | some s => let t := jsTrim s; if t = "" then none else some t

/-- Row validity test of `rowsToCategories` (and of the save guard): the
trimmed name is non-empty and the price is finite. -/
def validRow (row : MenuRow) : Bool :=
  jsTrim row.name ≠ "" && row.price.isSome

/-- The `MenuItem` entry built from a surviving row by `rowsToCategories`. -/
def rowEntry (row : MenuRow) : MenuItem :=
  { id := row.id, name := jsTrim row.name, price := row.price,
    description := normDesc row.description }

/-- Append a value to the group of `key` in an insertion-ordered grouped
association list, creating the group at the end on first sight (the JS
`Map`-based grouping loops, whose iteration order is insertion order). -/
def insertGrouped {α : Type} : List (String × List α) → String → α → List (String × List α)
  | [], key, a => [(key, [a])]
  | (k, as) :: rest, key, a =>
    if k = key then (k, as ++ [a]) :: rest
    else (k, as) :: insertGrouped rest key a

/-- Loop of `rowsToCategories`: fold the rows into the grouped map,
skipping invalid rows. -/
def rowsToCategoriesGo (acc : List (String × List MenuItem)) :
    List MenuRow → List (String × List MenuItem)
  | [] => acc
  | row :: rest =>
    if validRow row then
      rowsToCategoriesGo (insertGrouped acc (normalizeCategory row.category) (rowEntry row)) rest
    else rowsToCategoriesGo acc rest

/-- `rowsToCategories` from the dashboard page: group valid rows by
normalized category (first-seen order) into canonical groups. -/
def rowsToCategories (rows : List MenuRow) : List MenuCategory :=
  (rowsToCategoriesGo [] rows).map (fun p => ⟨p.1, p.2⟩)

/-- `categoriesToRows` from the dashboard page: flatten each group's items
back to flat rows tagged with the group name. -/
def categoriesToRows (cats : List MenuCategory) : List MenuRow :=
  cats.flatMap (fun cat =>
    cat.items.map (fun it =>
      { id := it.id,
        category := if cat.name = "" then "Uncategorized" else cat.name,
        name := it.name,
        price := it.price,
        description := normDesc it.description }))

/-- Synthesized id `slug(group) + "-" + slug(name) + "-" + n`. -/
def synthId (category name : String) (n : Nat) : String :=
  slugify category ++ "-" ++ slugify name ++ "-" ++ natToString n

/-- The normalized row produced by `ensureRowIds` for one input row, given
the per-group counter value `nextIndex` assigned to that row. -/
def mkEnsuredRow (row : MenuRow) (nextIndex : Nat) : MenuRow :=
  let category := normalizeCategory row.category
  let name := jsTrim row.name
  { id := if jsTrim row.id ≠ "" then jsTrim row.id else synthId category name nextIndex,
    category := category, name := name, price := row.price,
    description := normDesc row.description }

/-- Loop of `ensureRowIds`, carrying the map of per-group counters (the JS
`counters` map, modelled as a total function that is `0` off its domain). -/
def ensureRowIdsGo (counters : String → Nat) : List MenuRow → List MenuRow
  | [] => []
  | row :: rest =>
    let category := normalizeCategory row.category
    let nextIndex := counters category + 1
    mkEnsuredRow row nextIndex ::
      ensureRowIdsGo (fun c => if c = category then nextIndex else counters c) rest

/-- `ensureRowIds` from the dashboard page: normalize every row and give it
an id, keeping a non-empty explicit id (trimmed) and otherwise synthesizing
one from the group/name slugs and the per-group counter. -/
def ensureRowIds (rows : List MenuRow) : List MenuRow :=
  ensureRowIdsGo (fun _ => 0) rows

/-- The validation and payload construction of `saveMenu` from the
dashboard page: any row with an empty trimmed name or a non-finite price
blocks the save; otherwise rows are re-identified and projected to groups,
an empty projection also blocks, and the `.ok` value is the persisted
`menu_items_json` payload. -/
def saveMenu (menuRows : List MenuRow) : Except String (List MenuCategory) :=
  if menuRows.any (fun row => !validRow row) then
    .error "Please fix menu items (name and price required)."
  else
    let normalizedRows := ensureRowIds menuRows
    let categories := rowsToCategories normalizedRows
    if categories = [] then .error "No items to save yet."
    else .ok categories

/-- A parsed delimited-text record: header-name/cell-value pairs (the
record rows produced by the CSV parser); a missing key reads as the
undefined cell, which normalizes to the empty string. -/
abbrev Record := List (String × String)

/-- Read a cell of a record (`row[field]`, with `undefined` as `""` since
every consumer immediately coerces through `String(value ?? "")`). -/
def recordCell (rec : Record) (field : String) : String :=
  (rec.lookup field).getD ""

/-- JS `Map.set`: overwrite an existing key's value, otherwise append. -/
def mapSet (m : List (String × String)) (k v : String) : List (String × String) :=
  if m.any (fun p => p.1 = k) then m.map (fun p => if p.1 = k then (k, v) else p)
  else m ++ [(k, v)]

/-- The normalized-header-to-raw-field map built by the CSV branch. -/
def mkFieldMap (fields : List String) : List (String × String) :=
  fields.foldl (fun m f => mapSet m (normalizeHeader f) f) []

/-- `fieldMap.get(key) || ""`: the raw field name for a normalized header,
or the empty field name when the header is absent. -/
def fieldFor (fieldMap : List (String × String)) (key : String) : String :=
  (fieldMap.lookup key).getD ""

/-- The flat row(s) one CSV record contributes (the `flatMap` body of the
CSV branch of `importMenuFile`): an empty normalized name or unparseable
price silently drops the record; otherwise exactly one row is produced. -/
def rowOfRecord (fieldMap : List (String × String)) (rec : Record) : List MenuRow :=
  let itemName := normalizeText (recordCell rec (fieldFor fieldMap "item_name"))
  let priceVal := parsePrice (recordCell rec (fieldFor fieldMap "price"))
  if itemName = "" then []
  else match priceVal with
    | none => []
    | some p =>
      let category := normalizeCategory
        (normalizeText (recordCell rec (fieldFor fieldMap "category")))
      let itemId := normalizeText (recordCell rec (fieldFor fieldMap "item_id"))
      let description := normalizeText (recordCell rec (fieldFor fieldMap "description"))
      [{ id := itemId, category := category, name := itemName, price := some p,
         description := if description = "" then none else some description }]

/-- CSV branch of `importMenuFile`, starting after a structurally
successful parse: `fields` are the raw header names and `data` the records.
It fails fast when a required column is missing, drops invalid records
silently, fails when no valid row survives, and otherwise returns the
normalized rows together with their grouped projection (the state that the
importer installs in the editor). -/
def importMenuCsv (fields : List String) (data : List Record) :
    Except String (List MenuRow × List MenuCategory) :=
  let normalized := fields.map normalizeHeader
  let missing := (["item_name", "price"] : List String).filter
    (fun h => !normalized.contains h)
  if missing ≠ [] then
    .error ("Missing required columns: " ++ String.intercalate ", " missing ++ ".")
  else
    let fieldMap := mkFieldMap fields
    let rows := data.flatMap (rowOfRecord fieldMap)
    if rows = [] then .error "No valid rows found in the file."
    else
      let normalizedRows := ensureRowIds rows
      .ok (normalizedRows, rowsToCategories normalizedRows)

/-- JSON values as stored in / loaded from the persistence gateway. -/
inductive JValue where
  | null
  | bool (b : Bool)
  | num (q : ℚ)
  | str (s : String)
  | arr (elems : List JValue)
  | obj (fields : List (String × JValue))

/-- JS member access `v.k` on a loaded JSON value: throws a TypeError on
`null` (modelled by `.error ()`), yields `undefined` (`none`) on other
non-objects, and looks the field up on objects. -/
def jGet : JValue → String → Except Unit (Option JValue)
  | .null, _ => .error ()
  | .obj fields, k => .ok (fields.lookup k)
  | _, _ => .ok none

/-- JS optional member access `v?.k`: like `jGet` but silently `undefined`
on `null`. -/
def jGetOpt : JValue → String → Option JValue
  | .obj fields, k => fields.lookup k
  | _, _ => none

/-- JS truthiness of a value. -/
def truthyV : JValue → Bool
  | .null => false
  | .bool b => b
  | .num q => q ≠ 0
  | .str s => s ≠ ""
  | .arr _ => true
  | .obj _ => true

/-- JS truthiness of a possibly-`undefined` field read. -/
def truthy : Option JValue → Bool
  | none => false
  | some v => truthyV v

/-- JS `String(v)` coercion.  Array rendering is modelled only as far as the
verified properties need it (no property stringifies a non-empty array);
non-integer numbers render in a simplified fraction form. -/
def jToString : JValue → String
  | .null => "null"
  | .bool true => "true"
  | .bool false => "false"
  | .num q =>
    if q.den = 1 then intToString q.num
    else intToString q.num ++ "/" ++ natToString q.den
  | .str s => s
  | .arr _ => ""
  | .obj _ => "[object Object]"

/-- JS `Number(v)` coercion (`none` models `NaN`); container coercion is
modelled only for the empty array, other containers coerce to `NaN`. -/
def jToNumber : JValue → Option ℚ
  | .null => some 0
  | .bool true => some 1
  | .bool false => some 0
  | .num q => some q
  | .str s => jsStrToNum s
  | .arr [] => some 0
  | .arr _ => none
  | .obj _ => none

/-- The `String(field || fallback)` idiom on a read field value. -/
def orString (fv : Option JValue) (fallback : String) : String :=
  match fv with
  | some v => if truthyV v then jToString v else fallback
  | none => fallback

/-- The `Number(field ?? 0)` idiom on a read field value. -/
def numField (fv : Option JValue) : Option ℚ :=
  match fv with
  | none => some 0
  | some .null => some 0
  | some v => jToNumber v

/-- One element of the item mapping in `applyMenuJson` (both branches build
items the same way); member access on a `null` element throws. -/
def loadItem (idx : Nat) (it : JValue) : Except Unit MenuItem := do
  let idF ← jGet it "id"
  let nameF ← jGet it "name"
  let priceF ← jGet it "price"
  let descF ← jGet it "description"
  .ok { id := orString idF (natToString (idx + 1)),
        name := orString nameF "",
        price := numField priceF,
        description := match descF with | some (.str s) => some s | _ => none }

/-- Indexed traversal of the item mapping. -/
def loadItemsGo (idx : Nat) : List JValue → Except Unit (List MenuItem)
  | [] => .ok []
  | it :: rest => do
    let a ← loadItem idx it
    let as ← loadItemsGo (idx + 1) rest
    .ok (a :: as)

/-- The map-then-filter of `applyMenuJson`: build items with their index,
keep those with a truthy name and a finite price. -/
def loadItems (its : List JValue) : Except Unit (List MenuItem) :=
  (loadItemsGo 0 its).map (fun l =>
    l.filter (fun it => it.name ≠ "" && it.price.isSome))

/-- One element of the group mapping (first branch of `applyMenuJson`). -/
def loadGroup (c : JValue) : Except Unit MenuCategory := do
  let nameF ← jGet c "name"
  let itemsF ← jGet c "items"
  match itemsF with
  | some (.arr its) => do
    let items ← loadItems its
    .ok ⟨orString nameF "Uncategorized", items⟩
  | _ => .ok ⟨orString nameF "Uncategorized", []⟩

/-- `applyMenuJson` from the dashboard page: detect the stored shape by
probing the first array element's `items` member for truthiness; an array
of groups maps through `loadGroup`; any other array maps through the flat
item loader and lands in the single sentinel group when at least one item
survives; `null` and non-arrays degrade to the empty catalog. -/
def applyMenuJson : JValue → Except Unit (List MenuCategory)
  | .arr (x :: xs) =>
    if truthy (jGetOpt x "items") then
      (x :: xs).mapM loadGroup
    else do
      let items ← loadItems (x :: xs)
      .ok (if items ≠ [] then [⟨"Uncategorized", items⟩] else [])
  | .arr [] => .ok []
  | _ => .ok []

/-- A persisted delivery-zone row (one record of the shared zones table). -/
structure ZoneRow where
  restaurant_id : String
  city : String
  zone_name : String
  delivery_fee : ℚ
  min_order_amount : ℚ
  is_active : Bool
deriving DecidableEq, Repr, Inhabited

/-- The `zonesByCity` grouping of the zones route: the insert batch's zone
names partitioned by city, in first-seen city order. -/
def zonesByCity (rows : List ZoneRow) : List (String × List String) :=
  rows.foldl (fun acc z => insertGrouped acc z.city z.zone_name) []

/-- One scoped delete of the safe-replace protocol: remove exactly the
stored zones matching the restaurant id, the city, and one of the batch's
zone names for that city. -/
def deleteScoped (store : List ZoneRow) (rid city : String) (names : List String) :
    List ZoneRow :=
  store.filter (fun z =>
    !(z.restaurant_id = rid && z.city = city && names.contains z.zone_name))

/-- The per-city delete loop of the zones `POST` handler.  `gateErr` models
the Persistence Gateway's response to each delete request: `some msg` is a
gateway error, which the route turns into a thrown `Error` aborting the
loop with that message. -/
def runDeletes (rid : String) (gateErr : String → List String → Option String) :
    List (String × List String) → List ZoneRow → Except String (List ZoneRow)
  | [], store => .ok store
  | (city, names) :: rest, store =>
    match gateErr city names with
    | some msg => .error msg
    | none => runDeletes rid gateErr rest (deleteScoped store rid city names)

/-- The mutation the zones `POST` handler performs on the stored table
after validation: per-city scoped deletes, then insertion of the whole
batch; a gateway error message is surfaced verbatim as the response's
error. -/
def postDeliveryZones (store : List ZoneRow) (rid : String)
    (gateErr : String → List String → Option String) (rows : List ZoneRow) :
    Except String (List ZoneRow) :=
  match runDeletes rid gateErr (zonesByCity rows) store with
  | .error msg => .error msg
  | .ok st => .ok (st ++ rows)

/-- Whether `pre` is a leading segment of `l`. -/
def segStartsWith : List Char → List Char → Bool
  | [], _ => true
  | _ :: _, [] => false
  | c :: cs, h :: hs => c = h && segStartsWith cs hs

/-- Whether `needle` occurs as a contiguous segment of `hay`. -/
def hasSeg (needle : List Char) : List Char → Bool
  | [] => segStartsWith needle []
  | h :: hs => segStartsWith needle (h :: hs) || hasSeg needle hs

/-- Whether `needle` occurs inside `hay` (used to state whether an error
message mentions a city name). -/
def mentions (hay needle : String) : Bool := hasSeg needle.data hay.data

deriving instance DecidableEq for Except

/-- No two adjacent characters of the list satisfy `p` (specification-side
predicate used to characterize collapsed whitespace). -/
def noTwo (p : Char → Bool) : List Char → Prop :=
  List.Chain' (fun a b => ¬(p a = true ∧ p b = true))

/-- Number of rows of a list whose normalized category is `key` (the value
the per-group counter of `ensureRowIds` has after processing the list). -/
def countCat (rows : List MenuRow) (key : String) : Nat :=
  (rows.filter (fun s => normalizeCategory s.category = key)).length

/-- Items stored under `key` in the grouped association list. -/
def lookupItems (acc : List (String × List MenuItem)) (key : String) : List MenuItem :=
  ((acc.find? (fun p => p.1 = key)).map Prod.snd).getD []

/-- Items of the (unique) group named `key` in a projected catalog. -/
def groupItems (cats : List MenuCategory) (key : String) : List MenuItem :=
  ((cats.find? (fun c => c.name = key)).map MenuCategory.items).getD []

/-- The canonical entries contributed to group `key` by a row list: its
valid rows with that normalized category, in row order. -/
def validEntriesFor (rows : List MenuRow) (key : String) : List MenuItem :=
  (rows.filter (fun r => validRow r && normalizeCategory r.category = key)).map rowEntry

/-- All items of a grouped association list, in group-major order. -/
def accItems (acc : List (String × List MenuItem)) : List MenuItem :=
  acc.flatMap (fun p => p.2)

/-- The fields of a row the round-trip law compares, read verbatim. -/
def rawFields (r : MenuRow) : String × Option ℚ × Option String :=
  (r.name, r.price, r.description)

/-- The fields of a row the round-trip law compares, after the projector's
own text normalization (trimmed name, trimmed-or-absent description). -/
def normFields (r : MenuRow) : String × Option ℚ × Option String :=
  (jsTrim r.name, r.price, normDesc r.description)

/-! ### Basic facts about the character-level normalizers -/

lemma strMk_data (s : String) : String.mk s.data = s := by
  cases s; rfl

lemma dropWhile_dropWhile (p : Char → Bool) (l : List Char) :
    (l.dropWhile p).dropWhile p = l.dropWhile p := by
  induction l with
  | nil => rfl
  | cons c cs ih =>
    by_cases h : p c = true
    · simp [List.dropWhile_cons, h, ih]
    · simp [List.dropWhile_cons, h]

lemma dropWhile_eq_self_of_append (p : Char → Bool) (A pre suff : List Char)
    (hA : A.dropWhile p = A) (hsplit : A = pre ++ suff) :
    pre.dropWhile p = pre := by
  cases pre with
  | nil => rfl
  | cons c cs =>
    have hc : p c = false := by
      by_contra hcontra
      have hc' : p c = true := by
        cases hpc : p c
        · exact absurd hpc hcontra
        · rfl
      have hstep : A.dropWhile p = (cs ++ suff).dropWhile p := by
        rw [hsplit, List.cons_append, List.dropWhile_cons, if_pos hc']
      rw [hA] at hstep
      have hlen := congrArg List.length hstep
      have hle := (List.dropWhile_sublist (l := cs ++ suff) p).length_le
      rw [hsplit] at hlen
      simp [List.length_append] at hlen hle
      omega
    simp [List.dropWhile_cons, hc]

lemma dropEnds_idem (p : Char → Bool) (l : List Char) :
    dropEnds p (dropEnds p l) = dropEnds p l := by
  have hAA : (l.dropWhile p).dropWhile p = l.dropWhile p := dropWhile_dropWhile p l
  set A := l.dropWhile p with hA
  set B := A.reverse.dropWhile p with hB
  have hsplit : A = B.reverse ++ (A.reverse.takeWhile p).reverse := by
    have h1 : A.reverse.takeWhile p ++ B = A.reverse :=
      List.takeWhile_append_dropWhile p A.reverse
    have h2 := congrArg List.reverse h1
    simpa [List.reverse_append] using h2.symm
  have hR : B.reverse.dropWhile p = B.reverse :=
    dropWhile_eq_self_of_append p A B.reverse _ hAA hsplit
  have hBB : B.dropWhile p = B := by
    rw [hB]; exact dropWhile_dropWhile p A.reverse
  have hD : dropEnds p l = B.reverse := rfl
  rw [hD]
  calc dropEnds p B.reverse
      = ((B.reverse.dropWhile p).reverse.dropWhile p).reverse := rfl
    _ = (B.reverse.reverse.dropWhile p).reverse := by rw [hR]
    _ = (B.dropWhile p).reverse := by rw [List.reverse_reverse]
    _ = B.reverse := by rw [hBB]

lemma jsTrim_idem (s : String) : jsTrim (jsTrim s) = jsTrim s := by
  show String.mk (trimChars (String.mk (trimChars s.data)).data) = _
  simp only [trimChars]
  exact congrArg String.mk (dropEnds_idem isWs s.data)

lemma jsTrim_normalizeText (s : String) : jsTrim (normalizeText s) = normalizeText s := by
  show String.mk (trimChars (String.mk (trimChars (collapseRuns isWs ' ' s.data))).data) = _
  simp only [trimChars]
  exact congrArg String.mk (dropEnds_idem isWs (collapseRuns isWs ' ' s.data))

lemma normDesc_idem (d : Option String) : normDesc (normDesc d) = normDesc d := by
  cases d with
  | none => rfl
  | some s =>
    show normDesc (if jsTrim s = "" then none else some (jsTrim s)) = _
    by_cases h : jsTrim s = ""
    · simp [normDesc, h]
    · simp only [normDesc, if_neg h]
      rw [jsTrim_idem s]
      simp [normDesc, h]

lemma mem_collapseRuns (p : Char → Bool) (rep : Char) (c : Char) :
    ∀ l : List Char, c ∈ collapseRuns p rep l → c = rep ∨ (c ∈ l ∧ p c = false) := by
  intro l
  induction l with
  | nil => simp [collapseRuns]
  | cons c1 rest ih =>
    cases rest with
    | nil =>
      intro h
      by_cases h1 : p c1 = true
      · simp only [collapseRuns, if_pos h1, List.mem_singleton] at h
        exact Or.inl h
      · simp only [collapseRuns, if_neg h1, List.mem_singleton] at h
        subst h
        exact Or.inr ⟨List.mem_singleton_self c, by simpa using h1⟩
    | cons c2 cs =>
      intro h
      by_cases h1 : p c1 = true
      · by_cases h2 : p c2 = true
        · simp only [collapseRuns, if_pos h1, if_pos h2] at h
          rcases ih h with rfl | ⟨hm, hp⟩
          · exact Or.inl rfl
          · exact Or.inr ⟨List.mem_cons_of_mem _ hm, hp⟩
        · simp only [collapseRuns, if_pos h1, if_neg h2] at h
          rcases List.mem_cons.mp h with rfl | h'
          · exact Or.inl rfl
          · rcases ih h' with rfl | ⟨hm, hp⟩
            · exact Or.inl rfl
            · exact Or.inr ⟨List.mem_cons_of_mem _ hm, hp⟩
      · simp only [collapseRuns, if_neg h1] at h
        rcases List.mem_cons.mp h with rfl | h'
        · exact Or.inr ⟨List.mem_cons_self _ _, by simpa using h1⟩
        · rcases ih h' with rfl | ⟨hm, hp⟩
          · exact Or.inl rfl
          · exact Or.inr ⟨List.mem_cons_of_mem _ hm, hp⟩

lemma collapseRuns_head (p : Char → Bool) (rep : Char) :
    ∀ (cs : List Char) (c : Char),
      (collapseRuns p rep (c :: cs)).head? = some (if p c = true then rep else c) := by
  intro cs
  induction cs with
  | nil => intro c; by_cases h : p c = true <;> simp [collapseRuns, h]
  | cons c2 cs' ih =>
    intro c
    by_cases h1 : p c = true
    · by_cases h2 : p c2 = true
      · simp only [collapseRuns, if_pos h1, if_pos h2, ih c2, if_pos h2]
      · simp [collapseRuns, if_pos h1, if_neg h2, h1]
    · simp [collapseRuns, if_neg h1, h1]

lemma collapseRuns_chain (p : Char → Bool) (rep : Char) :
    ∀ l : List Char, noTwo p (collapseRuns p rep l) := by
  intro l
  induction l with
  | nil => simp [collapseRuns, noTwo]
  | cons c1 rest ih =>
    cases rest with
    | nil =>
      by_cases h1 : p c1 = true <;> simp [collapseRuns, h1, noTwo]
    | cons c2 cs =>
      by_cases h1 : p c1 = true
      · by_cases h2 : p c2 = true
        · simpa only [collapseRuns, if_pos h1, if_pos h2] using ih
        · simp only [collapseRuns, if_pos h1, if_neg h2]
          rw [noTwo, List.chain'_cons']
          refine ⟨?_, ih⟩
          intro b hb
          rw [collapseRuns_head p rep cs c2, if_neg h2] at hb
          simp only [Option.mem_def, Option.some.injEq] at hb
          subst hb
          simp [h2]
      · simp only [collapseRuns, if_neg h1]
        rw [noTwo, List.chain'_cons']
        refine ⟨?_, ih⟩
        intro b _
        simp [h1]

lemma collapseRuns_eq_self (p : Char → Bool) (rep : Char) :
    ∀ l : List Char, noTwo p l → (∀ c ∈ l, p c = true → c = rep) →
      collapseRuns p rep l = l := by
  intro l
  induction l with
  | nil => intro _ _; rfl
  | cons c1 rest ih =>
    cases rest with
    | nil =>
      intro _ hmem
      by_cases h1 : p c1 = true
      · have := hmem c1 (List.mem_singleton_self c1) h1
        simp [collapseRuns, if_pos h1, this]
      · simp [collapseRuns, if_neg h1]
    | cons c2 cs =>
      intro hchain hmem
      have hpair := (List.chain'_cons.mp hchain).1
      have htail : noTwo p (c2 :: cs) := (List.chain'_cons.mp hchain).2
      have hmemtail : ∀ c ∈ c2 :: cs, p c = true → c = rep := fun c hc =>
        hmem c (List.mem_cons_of_mem _ hc)
      by_cases h1 : p c1 = true
      · have h2 : ¬(p c2 = true) := fun h2 => hpair ⟨h1, h2⟩
        have hc1 : c1 = rep := hmem c1 (List.mem_cons_self _ _) h1
        simp only [collapseRuns, if_pos h1, if_neg h2, ih htail hmemtail, hc1]
        split <;> rfl
      · simp only [collapseRuns, if_neg h1, ih htail hmemtail]

lemma noTwo_dropWhile (p q : Char → Bool) (l : List Char) (h : noTwo p l) :
    noTwo p (l.dropWhile q) :=
  h.suffix (List.dropWhile_suffix q)

lemma noTwo_reverse (p : Char → Bool) (l : List Char) (h : noTwo p l) :
    noTwo p l.reverse := by
  rw [noTwo, List.chain'_reverse]
  exact h.imp (fun a b hab => fun hba => hab ⟨hba.2, hba.1⟩)

lemma dropEnds_subset (p : Char → Bool) (l : List Char) :
    ∀ c ∈ dropEnds p l, c ∈ l := by
  intro c hc
  unfold dropEnds at hc
  rw [List.mem_reverse] at hc
  have h1 := (List.dropWhile_sublist p).subset hc
  rw [List.mem_reverse] at h1
  exact (List.dropWhile_sublist p).subset h1

lemma normalizeText_idem (s : String) : normalizeText (normalizeText s) = normalizeText s := by
  have hchain : noTwo isWs (collapseRuns isWs ' ' s.data) := collapseRuns_chain _ _ _
  have hmem : ∀ c ∈ collapseRuns isWs ' ' s.data, isWs c = true → c = ' ' := by
    intro c hc hw
    rcases mem_collapseRuns isWs ' ' c _ hc with rfl | ⟨_, hp⟩
    · rfl
    · rw [hw] at hp; cases hp
  have hchainX : noTwo isWs (dropEnds isWs (collapseRuns isWs ' ' s.data)) := by
    unfold dropEnds
    exact noTwo_reverse _ _ (noTwo_dropWhile _ _ _ (noTwo_reverse _ _ (noTwo_dropWhile _ _ _ hchain)))
  have hmemX : ∀ c ∈ dropEnds isWs (collapseRuns isWs ' ' s.data), isWs c = true → c = ' ' :=
    fun c hc => hmem c (dropEnds_subset _ _ c hc)
  have hcoll : collapseRuns isWs ' '
      (dropEnds isWs (collapseRuns isWs ' ' s.data))
        = dropEnds isWs (collapseRuns isWs ' ' s.data) :=
    collapseRuns_eq_self _ _ _ hchainX hmemX
  show String.mk (trimChars (collapseRuns isWs ' '
    (String.mk (trimChars (collapseRuns isWs ' ' s.data))).data)) = _
  simp only [trimChars]
  rw [hcoll, dropEnds_idem]
  rfl

lemma normalizeCategory_def (s : String) :
    normalizeCategory s = if normalizeText s = "" then "Uncategorized" else normalizeText s := rfl

lemma normalizeCategory_idem (s : String) :
    normalizeCategory (normalizeCategory s) = normalizeCategory s := by
  rw [normalizeCategory_def s]
  by_cases h : normalizeText s = ""
  · rw [if_pos h]; decide
  · rw [if_neg h, normalizeCategory_def (normalizeText s), normalizeText_idem s, if_neg h]

/-! ### Characters appearing in synthesized ids carry no whitespace -/

lemma dropWhile_of_forall_not (p : Char → Bool) (l : List Char)
    (h : ∀ c ∈ l, p c = false) : l.dropWhile p = l := by
  cases l with
  | nil => rfl
  | cons c cs => simp [List.dropWhile_cons, h c (List.mem_cons_self _ _)]

lemma trimChars_of_no_ws (l : List Char) (h : ∀ c ∈ l, isWs c = false) :
    trimChars l = l := by
  unfold trimChars dropEnds
  rw [dropWhile_of_forall_not _ _ h,
    dropWhile_of_forall_not _ _ (fun c hc => h c (List.mem_reverse.mp hc)),
    List.reverse_reverse]

lemma isWs_eq_false_of_isSlugKeep (c : Char) (h : isSlugKeep c = true) :
    isWs c = false := by
  cases hw : isWs c
  · rfl
  · exfalso
    simp only [isWs, Bool.or_eq_true, decide_eq_true_eq] at hw
    rcases hw with ((((h1 | h1) | h1) | h1) | h1) | h1 <;>
      (subst h1; exact absurd h (by decide))

lemma slugify_no_ws (s : String) : ∀ c ∈ (slugify s).data, isWs c = false := by
  intro c hc
  by_cases h : dropEnds (fun c => c = '-')
      (collapseRuns (fun c => !isSlugKeep c) '-' (s.data.map Char.toLower)) = []
  · have hs : slugify s = "item" := by simp only [slugify]; rw [if_pos h]
    rw [hs] at hc
    have : ∀ c ∈ ("item" : String).data, isWs c = false := by decide
    exact this c hc
  · have hs : slugify s = String.mk (dropEnds (fun c => c = '-')
        (collapseRuns (fun c => !isSlugKeep c) '-' (s.data.map Char.toLower))) := by
      simp only [slugify]; rw [if_neg h]
    rw [hs] at hc
    have hc' := dropEnds_subset _ _ c hc
    rcases mem_collapseRuns _ '-' c _ hc' with rfl | ⟨_, hp⟩
    · decide
    · have hk : isSlugKeep c = true := by simpa using hp
      exact isWs_eq_false_of_isSlugKeep c hk

lemma digitChar_mem (d : Nat) :
    digitChar d ∈ ['0', '1', '2', '3', '4', '5', '6', '7', '8', '9'] := by
  unfold digitChar
  split <;> decide

lemma natDigitsAux_chars :
    ∀ (fuel n : Nat) (c : Char), c ∈ natDigitsAux fuel n →
      c ∈ ['0', '1', '2', '3', '4', '5', '6', '7', '8', '9'] := by
  intro fuel
  induction fuel with
  | zero => intro n c h; simp [natDigitsAux] at h
  | succ f ih =>
    intro n c h
    simp only [natDigitsAux] at h
    by_cases hn : n < 10
    · rw [if_pos hn] at h
      rw [List.mem_singleton] at h
      subst h
      exact digitChar_mem n
    · rw [if_neg hn] at h
      rcases List.mem_append.mp h with h' | h'
      · exact ih _ _ h'
      · rw [List.mem_singleton] at h'
        subst h'
        exact digitChar_mem _

lemma digit_no_ws (c : Char)
    (h : c ∈ ['0', '1', '2', '3', '4', '5', '6', '7', '8', '9']) : isWs c = false := by
  fin_cases h <;> decide

lemma digit_ne_dash (c : Char)
    (h : c ∈ ['0', '1', '2', '3', '4', '5', '6', '7', '8', '9']) : c ≠ '-' := by
  fin_cases h <;> decide

lemma natDigits_ne_nil (n : Nat) : natDigits n ≠ [] := by
  unfold natDigits natDigitsAux
  split <;> simp

lemma synthId_data (a b : String) (n : Nat) :
    (synthId a b n).data
      = (slugify a).data ++ '-' :: ((slugify b).data ++ '-' :: natDigits n) := by
  have hdash : ("-" : String).data = ['-'] := rfl
  unfold synthId natToString
  simp [String.data_append, hdash, List.append_assoc]

lemma synthId_no_ws (a b : String) (n : Nat) :
    ∀ c ∈ (synthId a b n).data, isWs c = false := by
  intro c hc
  rw [synthId_data] at hc
  simp only [List.mem_append, List.mem_cons] at hc
  rcases hc with h | rfl | h | rfl | h
  · exact slugify_no_ws a c h
  · decide
  · exact slugify_no_ws b c h
  · decide
  · exact digit_no_ws c (natDigitsAux_chars _ _ c h)

lemma jsTrim_synthId (a b : String) (n : Nat) :
    jsTrim (synthId a b n) = synthId a b n := by
  show String.mk (trimChars (synthId a b n).data) = _
  rw [trimChars_of_no_ws _ (synthId_no_ws a b n), strMk_data]

lemma synthId_ne_empty (a b : String) (n : Nat) : synthId a b n ≠ "" := by
  intro h
  have hdat := congrArg String.data h
  rw [synthId_data] at hdat
  simp at hdat

/-! ### The `ensureRowIds` loop -/

lemma ensureRowIdsGo_length (rows : List MenuRow) :
    ∀ counters, (ensureRowIdsGo counters rows).length = rows.length := by
  induction rows with
  | nil => intro counters; rfl
  | cons s rest ih => intro counters; simp [ensureRowIdsGo, ih]

lemma mkEnsuredRow_id_trim (row : MenuRow) (n : Nat) :
    jsTrim (mkEnsuredRow row n).id = (mkEnsuredRow row n).id ∧
      (mkEnsuredRow row n).id ≠ "" := by
  by_cases h : jsTrim row.id ≠ ""
  · have hid : (mkEnsuredRow row n).id = jsTrim row.id := by
      simp only [mkEnsuredRow]; rw [if_pos h]
    rw [hid]
    exact ⟨jsTrim_idem row.id, h⟩
  · have hid : (mkEnsuredRow row n).id
        = synthId (normalizeCategory row.category) (jsTrim row.name) n := by
      simp only [mkEnsuredRow]; rw [if_neg h]
    rw [hid]
    exact ⟨jsTrim_synthId _ _ n, synthId_ne_empty _ _ n⟩

lemma mkEnsuredRow_idem (row : MenuRow) (n m : Nat) :
    mkEnsuredRow (mkEnsuredRow row n) m = mkEnsuredRow row n := by
  obtain ⟨htrim, hne⟩ := mkEnsuredRow_id_trim row n
  have hcat : (mkEnsuredRow row n).category = normalizeCategory row.category := rfl
  have hname : (mkEnsuredRow row n).name = jsTrim row.name := rfl
  have hprice : (mkEnsuredRow row n).price = row.price := rfl
  have hdesc : (mkEnsuredRow row n).description = normDesc row.description := rfl
  have houter : mkEnsuredRow (mkEnsuredRow row n) m =
      { id := if jsTrim (mkEnsuredRow row n).id ≠ "" then jsTrim (mkEnsuredRow row n).id
          else synthId (normalizeCategory (mkEnsuredRow row n).category)
            (jsTrim (mkEnsuredRow row n).name) m,
        category := normalizeCategory (mkEnsuredRow row n).category,
        name := jsTrim (mkEnsuredRow row n).name,
        price := (mkEnsuredRow row n).price,
        description := normDesc (mkEnsuredRow row n).description } := rfl
  rw [houter]
  rw [htrim, hcat, hname, hprice, hdesc]
  rw [if_pos hne, normalizeCategory_idem, jsTrim_idem, normDesc_idem]
  have hinner : mkEnsuredRow row n =
      { id := (mkEnsuredRow row n).id,
        category := normalizeCategory row.category,
        name := jsTrim row.name,
        price := row.price,
        description := normDesc row.description } := rfl
  rw [hinner]

lemma ensureRowIdsGo_idem (rows : List MenuRow) :
    ∀ c1 c2 : String → Nat,
      ensureRowIdsGo c2 (ensureRowIdsGo c1 rows) = ensureRowIdsGo c1 rows := by
  induction rows with
  | nil => intro c1 c2; rfl
  | cons s rest ih =>
    intro c1 c2
    simp only [ensureRowIdsGo, mkEnsuredRow_idem, ih]

lemma ensureRowIdsGo_get? (rows : List MenuRow) :
    ∀ (counters : String → Nat) (i : Nat) (r : MenuRow),
      rows.get? i = some r →
      (ensureRowIdsGo counters rows).get? i =
        some (mkEnsuredRow r (counters (normalizeCategory r.category) +
          countCat (rows.take i) (normalizeCategory r.category) + 1)) := by
  induction rows with
  | nil => intro counters i r h; simp at h
  | cons s rest ih =>
    intro counters i r h
    cases i with
    | zero =>
      rw [List.get?_cons_zero] at h
      injection h with h
      subst h
      simp [ensureRowIdsGo, countCat]
    | succ j =>
      rw [List.get?_cons_succ] at h
      have hrec := ih (fun c => if c = normalizeCategory s.category
        then counters (normalizeCategory s.category) + 1 else counters c) j r h
      simp only [ensureRowIdsGo, List.get?_cons_succ]
      rw [hrec]
      have htake : List.take (j + 1) (s :: rest) = s :: List.take j rest := rfl
      have harg : (fun c => if c = normalizeCategory s.category
            then counters (normalizeCategory s.category) + 1 else counters c)
            (normalizeCategory r.category)
            + countCat (List.take j rest) (normalizeCategory r.category) + 1
          = counters (normalizeCategory r.category)
            + countCat (List.take (j + 1) (s :: rest)) (normalizeCategory r.category) + 1 := by
        rw [htake]
        by_cases hk : normalizeCategory s.category = normalizeCategory r.category
        · simp [countCat, List.filter_cons, hk]
          omega
        · simp [countCat, List.filter_cons, hk]
          intro h'
          exact absurd h'.symm hk
      rw [harg]

/-! ### Injectivity of the decimal counter suffix of synthesized ids -/

lemma splitAtFirst {α : Type} (c : α) :
    ∀ l1 l2 r1 r2 : List α, c ∉ l1 → c ∉ l2 →
      l1 ++ c :: r1 = l2 ++ c :: r2 → l1 = l2 := by
  intro l1
  induction l1 with
  | nil =>
    intro l2 r1 r2 _ h2 heq
    cases l2 with
    | nil => rfl
    | cons d ds =>
      exfalso
      rw [List.nil_append, List.cons_append] at heq
      injection heq with hc _
      exact h2 (hc ▸ List.mem_cons_self d ds)
  | cons a as ih =>
    intro l2 r1 r2 h1 h2 heq
    cases l2 with
    | nil =>
      exfalso
      rw [List.nil_append, List.cons_append] at heq
      injection heq with hc _
      exact h1 (hc ▸ List.mem_cons_self a as)
    | cons d ds =>
      rw [List.cons_append, List.cons_append] at heq
      injection heq with hhead htail
      have := ih ds r1 r2 (fun hm => h1 (List.mem_cons_of_mem _ hm))
        (fun hm => h2 (List.mem_cons_of_mem _ hm)) htail
      rw [hhead, this]

lemma digitVal_digitChar (d : Nat) (h : d < 10) : digitVal (digitChar d) = d := by
  interval_cases d <;> decide

lemma digitsToNat_append (A : List Char) (c : Char) :
    digitsToNat (A ++ [c]) = 10 * digitsToNat A + digitVal c := by
  unfold digitsToNat
  rw [List.foldl_append]
  rfl

lemma natDigitsAux_congr :
    ∀ f1 f2 n : Nat, n < f1 → n < f2 → natDigitsAux f1 n = natDigitsAux f2 n := by
  intro f1
  induction f1 with
  | zero => intro f2 n h; omega
  | succ g1 ih =>
    intro f2 n h1 h2
    cases f2 with
    | zero => omega
    | succ g2 =>
      simp only [natDigitsAux]
      by_cases hn : n < 10
      · rw [if_pos hn, if_pos hn]
      · rw [if_neg hn, if_neg hn]
        have hd : n / 10 < n := Nat.div_lt_self (by omega) (by omega)
        rw [ih g2 (n / 10) (by omega) (by omega)]

lemma natDigits_eq_of_ge (n : Nat) (h : ¬n < 10) :
    natDigits n = natDigits (n / 10) ++ [digitChar (n % 10)] := by
  have hstep : natDigits n
      = if n < 10 then [digitChar n] else natDigitsAux n (n / 10) ++ [digitChar (n % 10)] := rfl
  rw [hstep, if_neg h]
  congr 1
  exact natDigitsAux_congr n (n / 10 + 1) (n / 10)
    (lt_of_lt_of_le (Nat.div_lt_self (by omega) (by omega)) (by omega))
    (Nat.lt_succ_self _)

lemma digitsToNat_natDigits (n : Nat) : digitsToNat (natDigits n) = n := by
  induction n using Nat.strong_induction_on with
  | _ n ih =>
    by_cases h : n < 10
    · have hd : natDigits n = [digitChar n] := by
        have hstep : natDigits n
            = if n < 10 then [digitChar n]
              else natDigitsAux n (n / 10) ++ [digitChar (n % 10)] := rfl
        rw [hstep, if_pos h]
      rw [hd]
      show 10 * 0 + digitVal (digitChar n) = n
      rw [digitVal_digitChar n h]
      omega
    · rw [natDigits_eq_of_ge n h, digitsToNat_append,
        ih (n / 10) (Nat.div_lt_self (by omega) (by omega)),
        digitVal_digitChar (n % 10) (Nat.mod_lt _ (by omega))]
      omega

lemma natDigits_injective (n1 n2 : Nat) (h : natDigits n1 = natDigits n2) : n1 = n2 := by
  rw [← digitsToNat_natDigits n1, h, digitsToNat_natDigits]

lemma natDigits_no_dash (n : Nat) : ('-' : Char) ∉ natDigits n :=
  fun h => digit_ne_dash '-' (natDigitsAux_chars _ _ _ h) rfl

lemma synthId_ne_of_ne (cat nm1 nm2 : String) (n1 n2 : Nat) (h : n1 ≠ n2) :
    synthId cat nm1 n1 ≠ synthId cat nm2 n2 := by
  intro heq
  have hdat := congrArg String.data heq
  rw [synthId_data, synthId_data] at hdat
  have hdat2 := List.append_cancel_left hdat
  injection hdat2 with _ hdat3
  have hrev := congrArg List.reverse hdat3
  simp only [List.reverse_append, List.reverse_cons, List.append_assoc,
    List.singleton_append, List.nil_append] at hrev
  have hsplit := splitAtFirst '-' (natDigits n1).reverse (natDigits n2).reverse _ _
    (fun hm => natDigits_no_dash n1 (List.mem_reverse.mp hm))
    (fun hm => natDigits_no_dash n2 (List.mem_reverse.mp hm)) hrev
  exact h (natDigits_injective n1 n2 (List.reverse_injective hsplit))

lemma countCat_lt_of_get? (rows : List MenuRow) (i j : Nat) (ri : MenuRow)
    (hij : i < j) (hi : rows.get? i = some ri) :
    countCat (rows.take i) (normalizeCategory ri.category)
      < countCat (rows.take j) (normalizeCategory ri.category) := by
  rw [List.get?_eq_getElem?] at hi
  obtain ⟨hlen, hval⟩ := List.getElem?_eq_some_iff.mp hi
  have htake : rows.take j = rows.take i ++ (rows.drop i).take (j - i) := by
    conv_lhs => rw [show j = i + (j - i) from by omega]
    rw [List.take_add]
  have hdrop : rows.drop i = ri :: rows.drop (i + 1) := by
    rw [List.drop_eq_getElem_cons hlen, hval]
  have hji : j - i = (j - i - 1) + 1 := by omega
  rw [htake, hdrop, hji]
  simp only [List.take_succ_cons, countCat, List.filter_append, List.filter_cons,
    List.length_append]
  simp

/-! ### The grouped projection -/

lemma lookupItems_insert_same (acc : List (String × List MenuItem)) (k : String)
    (a : MenuItem) : lookupItems (insertGrouped acc k a) k = lookupItems acc k ++ [a] := by
  induction acc with
  | nil => simp [insertGrouped, lookupItems]
  | cons hd rest ih =>
    obtain ⟨k', as⟩ := hd
    by_cases h : k' = k
    · subst h
      have hins : insertGrouped ((k', as) :: rest) k' a = (k', as ++ [a]) :: rest := by
        simp [insertGrouped]
      rw [hins]
      unfold lookupItems
      rw [List.find?_cons_of_pos _ (by simp), List.find?_cons_of_pos _ (by simp)]
      rfl
    · have hins : insertGrouped ((k', as) :: rest) k a = (k', as) :: insertGrouped rest k a := by
        simp only [insertGrouped, if_neg h]
      rw [hins]
      unfold lookupItems at ih ⊢
      rw [List.find?_cons_of_neg _ (by simp [h]), List.find?_cons_of_neg _ (by simp [h])]
      exact ih

lemma lookupItems_insert_other (acc : List (String × List MenuItem)) (k : String)
    (a : MenuItem) (k2 : String) (h : k2 ≠ k) :
    lookupItems (insertGrouped acc k a) k2 = lookupItems acc k2 := by
  have hne : ¬(k = k2) := fun he => h he.symm
  induction acc with
  | nil =>
    unfold lookupItems
    show ((([(k, [a])]).find? (fun p => p.1 = k2)).map Prod.snd).getD [] = _
    rw [List.find?_cons_of_neg _ (by simp [hne])]
  | cons hd rest ih =>
    obtain ⟨k', as⟩ := hd
    by_cases hk : k' = k
    · subst hk
      have hins : insertGrouped ((k', as) :: rest) k' a = (k', as ++ [a]) :: rest := by
        simp [insertGrouped]
      rw [hins]
      unfold lookupItems
      rw [List.find?_cons_of_neg _ (by simp [hne]),
        List.find?_cons_of_neg _ (by simp [hne])]
    · have hins : insertGrouped ((k', as) :: rest) k a = (k', as) :: insertGrouped rest k a := by
        simp only [insertGrouped, if_neg hk]
      rw [hins]
      by_cases h2 : k' = k2
      · subst h2
        unfold lookupItems
        rw [List.find?_cons_of_pos _ (by simp), List.find?_cons_of_pos _ (by simp)]
      · unfold lookupItems at ih ⊢
        rw [List.find?_cons_of_neg _ (by simp [h2]), List.find?_cons_of_neg _ (by simp [h2])]
        exact ih

lemma rowsToCategoriesGo_lookup (rows : List MenuRow) :
    ∀ (acc : List (String × List MenuItem)) (k : String),
      lookupItems (rowsToCategoriesGo acc rows) k
        = lookupItems acc k ++ validEntriesFor rows k := by
  induction rows with
  | nil => intro acc k; simp [rowsToCategoriesGo, validEntriesFor]
  | cons r rest ih =>
    intro acc k
    by_cases hv : validRow r = true
    · have hgo : rowsToCategoriesGo acc (r :: rest)
          = rowsToCategoriesGo (insertGrouped acc (normalizeCategory r.category) (rowEntry r)) rest := by
        simp only [rowsToCategoriesGo, if_pos hv]
      rw [hgo, ih]
      by_cases hk : normalizeCategory r.category = k
      · rw [← hk, lookupItems_insert_same]
        simp [validEntriesFor, List.filter_cons, hv, List.append_assoc]
      · rw [lookupItems_insert_other _ _ _ k (fun he => hk he.symm)]
        simp [validEntriesFor, List.filter_cons, hv, hk]
    · have hgo : rowsToCategoriesGo acc (r :: rest) = rowsToCategoriesGo acc rest := by
        simp only [rowsToCategoriesGo, if_neg hv]
      rw [hgo, ih]
      simp [validEntriesFor, List.filter_cons, hv]

lemma insertGrouped_keys_mem (acc : List (String × List MenuItem)) (k : String)
    (a : MenuItem) (h : k ∈ acc.map Prod.fst) :
    (insertGrouped acc k a).map Prod.fst = acc.map Prod.fst := by
  induction acc with
  | nil => simp at h
  | cons hd rest ih =>
    obtain ⟨k', as⟩ := hd
    by_cases hk : k' = k
    · subst hk; simp [insertGrouped]
    · have hmem : k ∈ rest.map Prod.fst := by
        simp only [List.map_cons, List.mem_cons] at h
        rcases h with h | h
        · exact absurd h.symm hk
        · exact h
      simp only [insertGrouped, if_neg hk, List.map_cons, ih hmem]

lemma insertGrouped_keys_not_mem (acc : List (String × List MenuItem)) (k : String)
    (a : MenuItem) (h : k ∉ acc.map Prod.fst) :
    (insertGrouped acc k a).map Prod.fst = acc.map Prod.fst ++ [k] := by
  induction acc with
  | nil => simp [insertGrouped]
  | cons hd rest ih =>
    obtain ⟨k', as⟩ := hd
    have hk : k' ≠ k := by
      intro he
      exact h (by simp [he])
    have hrest : k ∉ rest.map Prod.fst := fun hm => h (by simp [hm])
    simp only [insertGrouped, if_neg hk, List.map_cons, ih hrest, List.cons_append]

lemma rowsToCategoriesGo_keys_nodup (rows : List MenuRow) :
    ∀ acc : List (String × List MenuItem),
      (acc.map Prod.fst).Nodup → ((rowsToCategoriesGo acc rows).map Prod.fst).Nodup := by
  induction rows with
  | nil => intro acc h; exact h
  | cons r rest ih =>
    intro acc h
    by_cases hv : validRow r = true
    · have hgo : rowsToCategoriesGo acc (r :: rest)
          = rowsToCategoriesGo (insertGrouped acc (normalizeCategory r.category) (rowEntry r)) rest := by
        simp only [rowsToCategoriesGo, if_pos hv]
      rw [hgo]
      apply ih
      by_cases hmem : normalizeCategory r.category ∈ acc.map Prod.fst
      · rw [insertGrouped_keys_mem _ _ _ hmem]; exact h
      · rw [insertGrouped_keys_not_mem _ _ _ hmem]
        simp [List.nodup_append, h, hmem]
    · have hgo : rowsToCategoriesGo acc (r :: rest) = rowsToCategoriesGo acc rest := by
        simp only [rowsToCategoriesGo, if_neg hv]
      rw [hgo]
      exact ih acc h

lemma rowsToCategories_names (rows : List MenuRow) :
    (rowsToCategories rows).map MenuCategory.name
      = (rowsToCategoriesGo [] rows).map Prod.fst := by
  simp only [rowsToCategories, List.map_map]
  rfl

lemma groupItems_map_eq (l : List (String × List MenuItem)) (k : String) :
    groupItems (l.map (fun p => ⟨p.1, p.2⟩)) k = lookupItems l k := by
  induction l with
  | nil => rfl
  | cons p rest ih =>
    by_cases h : p.1 = k
    · unfold groupItems lookupItems
      rw [List.map_cons, List.find?_cons_of_pos _ (by simp [h]),
        List.find?_cons_of_pos _ (by simp [h])]
      rfl
    · unfold groupItems lookupItems at ih ⊢
      rw [List.map_cons, List.find?_cons_of_neg _ (by simp [h]),
        List.find?_cons_of_neg _ (by simp [h])]
      exact ih

lemma groupItems_rowsToCategories (rows : List MenuRow) (k : String) :
    groupItems (rowsToCategories rows) k = validEntriesFor rows k := by
  rw [show rowsToCategories rows
    = (rowsToCategoriesGo [] rows).map (fun p => (⟨p.1, p.2⟩ : MenuCategory)) from rfl]
  rw [groupItems_map_eq, rowsToCategoriesGo_lookup]
  rfl

lemma accItems_insert (acc : List (String × List MenuItem)) (k : String) (a : MenuItem) :
    (accItems (insertGrouped acc k a)).Perm (accItems acc ++ [a]) := by
  induction acc with
  | nil => simp [insertGrouped, accItems]
  | cons hd rest ih =>
    obtain ⟨k', as⟩ := hd
    by_cases h : k' = k
    · subst h
      have hins : insertGrouped ((k', as) :: rest) k' a = (k', as ++ [a]) :: rest := by
        simp [insertGrouped]
      rw [hins]
      show ((as ++ [a]) ++ accItems rest).Perm ((as ++ accItems rest) ++ [a])
      rw [List.append_assoc as [a] (accItems rest), List.append_assoc as (accItems rest) [a]]
      exact List.Perm.append_left as List.perm_append_comm
    · have hins : insertGrouped ((k', as) :: rest) k a = (k', as) :: insertGrouped rest k a := by
        simp only [insertGrouped, if_neg h]
      rw [hins]
      show (as ++ accItems (insertGrouped rest k a)).Perm ((as ++ accItems rest) ++ [a])
      rw [List.append_assoc as (accItems rest) [a]]
      exact List.Perm.append_left as ih

lemma rowsToCategoriesGo_accItems (rows : List MenuRow) :
    ∀ acc : List (String × List MenuItem),
      (accItems (rowsToCategoriesGo acc rows)).Perm
        (accItems acc ++ (rows.filter validRow).map rowEntry) := by
  induction rows with
  | nil => intro acc; simp [rowsToCategoriesGo]
  | cons r rest ih =>
    intro acc
    by_cases hv : validRow r = true
    · have hgo : rowsToCategoriesGo acc (r :: rest)
          = rowsToCategoriesGo
              (insertGrouped acc (normalizeCategory r.category) (rowEntry r)) rest := by
        simp only [rowsToCategoriesGo, if_pos hv]
      rw [hgo]
      have h1 := ih (insertGrouped acc (normalizeCategory r.category) (rowEntry r))
      have h2 := (accItems_insert acc (normalizeCategory r.category)
        (rowEntry r)).append_right ((rest.filter validRow).map rowEntry)
      have h3 := h1.trans h2
      have heq : (accItems acc ++ [rowEntry r]) ++ (rest.filter validRow).map rowEntry
          = accItems acc ++ ((r :: rest).filter validRow).map rowEntry := by
        simp [List.filter_cons, hv, List.append_assoc]
      rw [heq] at h3
      exact h3
    · have hgo : rowsToCategoriesGo acc (r :: rest) = rowsToCategoriesGo acc rest := by
        simp only [rowsToCategoriesGo, if_neg hv]
      rw [hgo]
      have h1 := ih acc
      have heq : accItems acc ++ (rest.filter validRow).map rowEntry
          = accItems acc ++ ((r :: rest).filter validRow).map rowEntry := by
        simp [List.filter_cons, hv]
      rw [heq] at h1
      exact h1

lemma categoriesToRows_normFields (cats : List MenuCategory) :
    (categoriesToRows cats).map normFields
      = (cats.flatMap MenuCategory.items).map
          (fun it => (jsTrim it.name, it.price, normDesc (normDesc it.description))) := by
  unfold categoriesToRows
  rw [List.map_flatMap, List.map_flatMap]
  congr 1
  funext cat
  rw [List.map_map]
  apply List.map_congr_left
  intro it _
  rfl

lemma flatMap_items_accItems (l : List (String × List MenuItem)) :
    (l.map (fun p => (⟨p.1, p.2⟩ : MenuCategory))).flatMap MenuCategory.items
      = accItems l := by
  induction l with
  | nil => rfl
  | cons p rest ih =>
    simp only [List.map_cons, List.flatMap_cons]
    rw [ih]
    rfl

lemma insertGrouped_items_pred (P : MenuItem → Prop) (k : String) (a : MenuItem)
    (ha : P a) :
    ∀ acc : List (String × List MenuItem),
      (∀ p ∈ acc, ∀ it ∈ p.2, P it) →
      ∀ p ∈ insertGrouped acc k a, ∀ it ∈ p.2, P it := by
  intro acc
  induction acc with
  | nil =>
    intro _ p hp it hit
    simp only [insertGrouped, List.mem_singleton] at hp
    subst hp
    simp only [List.mem_singleton] at hit
    subst hit
    exact ha
  | cons hd rest ih =>
    obtain ⟨k', as⟩ := hd
    intro hacc p hp it hit
    by_cases h : k' = k
    · subst h
      have hins : insertGrouped ((k', as) :: rest) k' a = (k', as ++ [a]) :: rest := by
        simp [insertGrouped]
      rw [hins] at hp
      rcases List.mem_cons.mp hp with rfl | hp'
      · rcases List.mem_append.mp hit with hit' | hit'
        · exact hacc (k', as) (List.mem_cons_self _ _) it hit'
        · rw [List.mem_singleton] at hit'
          subst hit'
          exact ha
      · exact hacc p (List.mem_cons_of_mem _ hp') it hit
    · have hins : insertGrouped ((k', as) :: rest) k a = (k', as) :: insertGrouped rest k a := by
        simp only [insertGrouped, if_neg h]
      rw [hins] at hp
      rcases List.mem_cons.mp hp with rfl | hp'
      · exact hacc (k', as) (List.mem_cons_self _ _) it hit
      · exact ih (fun q hq => hacc q (List.mem_cons_of_mem _ hq)) p hp' it hit

lemma rowsToCategoriesGo_items_pred (P : MenuItem → Prop)
    (hP : ∀ r : MenuRow, validRow r = true → P (rowEntry r)) (rows : List MenuRow) :
    ∀ acc : List (String × List MenuItem),
      (∀ p ∈ acc, ∀ it ∈ p.2, P it) →
      ∀ p ∈ rowsToCategoriesGo acc rows, ∀ it ∈ p.2, P it := by
  induction rows with
  | nil => intro acc hacc; exact hacc
  | cons r rest ih =>
    intro acc hacc
    by_cases hv : validRow r = true
    · have hgo : rowsToCategoriesGo acc (r :: rest)
          = rowsToCategoriesGo
              (insertGrouped acc (normalizeCategory r.category) (rowEntry r)) rest := by
        simp only [rowsToCategoriesGo, if_pos hv]
      rw [hgo]
      exact ih _ (insertGrouped_items_pred P _ _ (hP r hv) acc hacc)
    · have hgo : rowsToCategoriesGo acc (r :: rest) = rowsToCategoriesGo acc rest := by
        simp only [rowsToCategoriesGo, if_neg hv]
      rw [hgo]
      exact ih acc hacc

lemma rowsToCategories_price_finite (rows : List MenuRow) :
    ∀ c ∈ rowsToCategories rows, ∀ it ∈ c.items, it.price ≠ none := by
  intro c hc it hit
  unfold rowsToCategories at hc
  rcases List.mem_map.mp hc with ⟨p, hp, rfl⟩
  refine rowsToCategoriesGo_items_pred (fun it => it.price ≠ none) ?_ rows [] (by simp) p hp it hit
  intro r hr
  show (rowEntry r).price ≠ none
  have : (rowEntry r).price = r.price := rfl
  rw [this]
  simp only [validRow, Bool.and_eq_true, decide_eq_true_eq] at hr
  intro hp'
  rw [hp'] at hr
  simp at hr

lemma rowOfRecord_shape (fm : List (String × String)) (rec : Record) (r : MenuRow)
    (h : r ∈ rowOfRecord fm rec) :
    r.price ≠ none ∧ r.name = normalizeText (recordCell rec (fieldFor fm "item_name")) ∧
      r.name ≠ "" := by
  unfold rowOfRecord at h
  by_cases hn : normalizeText (recordCell rec (fieldFor fm "item_name")) = ""
  · rw [if_pos hn] at h
    simp at h
  · rw [if_neg hn] at h
    cases hpv : parsePrice (recordCell rec (fieldFor fm "price")) with
    | none => rw [hpv] at h; simp at h
    | some p =>
      rw [hpv] at h
      rw [List.mem_singleton] at h
      subst h
      exact ⟨by simp, rfl, hn⟩

lemma ensureRowIdsGo_price_pred (rows : List MenuRow) :
    ∀ counters, (∀ r ∈ rows, r.price ≠ none) →
      ∀ r' ∈ ensureRowIdsGo counters rows, r'.price ≠ none := by
  induction rows with
  | nil => intro counters _ r' h; simp [ensureRowIdsGo] at h
  | cons s rest ih =>
    intro counters hall r' h
    simp only [ensureRowIdsGo] at h
    rcases List.mem_cons.mp h with rfl | h'
    · show (mkEnsuredRow s _).price ≠ none
      have : (mkEnsuredRow s (counters (normalizeCategory s.category) + 1)).price
          = s.price := rfl
      rw [this]
      exact hall s (List.mem_cons_self _ _)
    · exact ih _ (fun r hr => hall r (List.mem_cons_of_mem _ hr)) r' h'

lemma validRow_mkEnsuredRow (r : MenuRow) (n : Nat) :
    validRow (mkEnsuredRow r n) = validRow r := by
  unfold validRow
  have h1 : (mkEnsuredRow r n).name = jsTrim r.name := rfl
  have h2 : (mkEnsuredRow r n).price = r.price := rfl
  rw [h1, h2, jsTrim_idem]

lemma rowOfRecord_valid (fm : List (String × String)) (rec : Record) (r : MenuRow)
    (h : r ∈ rowOfRecord fm rec) : validRow r = true := by
  obtain ⟨hp, hname, hne⟩ := rowOfRecord_shape fm rec r h
  have htrim : jsTrim r.name = r.name := by rw [hname]; exact jsTrim_normalizeText _
  simp [validRow, htrim, hne, Option.isSome_iff_ne_none, hp]

lemma ensureRowIds_synth_id (rows : List MenuRow) (i : Nat) (r : MenuRow)
    (hget : rows.get? i = some r) (hid : jsTrim r.id = "") :
    ∃ r', (ensureRowIds rows).get? i = some r' ∧
      r'.id = synthId (normalizeCategory r.category) (jsTrim r.name)
        (countCat (rows.take i) (normalizeCategory r.category) + 1) := by
  refine ⟨_, ensureRowIdsGo_get? rows _ i r hget, ?_⟩
  simp only [mkEnsuredRow]
  rw [if_neg (by simp [hid])]
  rw [Nat.zero_add]

/-! ## Claim theorems -/

/-- C1 counterexample: the grouping key is case-sensitive — two valid rows
whose categories differ only in letter case land in two distinct groups,
not one. -/
theorem rowsToCategories_case_sensitive_counterexample :
    (rowsToCategories [⟨"1", "Burgers", "A", some 1, none⟩,
        ⟨"2", "burgers", "B", some 1, none⟩]).map (fun c => c.name)
      = ["Burgers", "burgers"] ∧ ("Burgers" : String) ≠ "burgers" := by decide

/-- C1 amended: the grouping key comparison is whitespace-normalized but
case-sensitive — any two valid rows whose category names agree after
whitespace collapsing/trimming are placed in the one group carrying their
shared normalized name (group names are pairwise distinct, so that group is
unique). -/
theorem rowsToCategories_whitespace_grouping :
    ∀ (rows : List MenuRow) (r1 r2 : MenuRow),
      r1 ∈ rows → r2 ∈ rows → validRow r1 = true → validRow r2 = true →
      normalizeText r1.category = normalizeText r2.category →
      ((rowsToCategories rows).map MenuCategory.name).Nodup ∧
      rowEntry r1 ∈ groupItems (rowsToCategories rows) (normalizeCategory r1.category) ∧
      rowEntry r2 ∈ groupItems (rowsToCategories rows) (normalizeCategory r1.category) := by
  intro rows r1 r2 h1 h2 hv1 hv2 hsq
  have hcat : normalizeCategory r1.category = normalizeCategory r2.category := by
    rw [normalizeCategory_def, normalizeCategory_def, hsq]
  refine ⟨?_, ?_, ?_⟩
  · rw [rowsToCategories_names]
    exact rowsToCategoriesGo_keys_nodup rows [] (by simp)
  · rw [groupItems_rowsToCategories]
    exact List.mem_map_of_mem rowEntry
      (List.mem_filter_of_mem h1 (by simp [hv1]))
  · rw [groupItems_rowsToCategories]
    exact List.mem_map_of_mem rowEntry
      (List.mem_filter_of_mem h2 (by simp [hv2, hcat.symm]))

theorem rowsToCategories_whitespace_grouping_witness :
    ((rowsToCategories [⟨"1", " Fast  Food ", "A", some 1, none⟩,
        ⟨"2", "Fast Food", "B", some 2, none⟩]).map MenuCategory.name).Nodup ∧
      rowEntry ⟨"1", " Fast  Food ", "A", some 1, none⟩ ∈
        groupItems (rowsToCategories [⟨"1", " Fast  Food ", "A", some 1, none⟩,
          ⟨"2", "Fast Food", "B", some 2, none⟩]) (normalizeCategory " Fast  Food ") ∧
      rowEntry ⟨"2", "Fast Food", "B", some 2, none⟩ ∈
        groupItems (rowsToCategories [⟨"1", " Fast  Food ", "A", some 1, none⟩,
          ⟨"2", "Fast Food", "B", some 2, none⟩]) (normalizeCategory " Fast  Food ") :=
  rowsToCategories_whitespace_grouping
    [⟨"1", " Fast  Food ", "A", some 1, none⟩, ⟨"2", "Fast Food", "B", some 2, none⟩]
    ⟨"1", " Fast  Food ", "A", some 1, none⟩ ⟨"2", "Fast Food", "B", some 2, none⟩
    (by decide) (by decide) (by decide) (by decide) (by decide)

/-- C4: identity assignment is idempotent — applying `ensureRowIds` twice
returns exactly the result of applying it once (in particular identical
ids), and a row whose explicit id is non-empty (already in trimmed form, as
every id is after a first pass) keeps that id verbatim on every run. -/
theorem ensureRowIds_idempotent :
    ∀ rows : List MenuRow,
      ensureRowIds (ensureRowIds rows) = ensureRowIds rows ∧
      (∀ (i : Nat) (r : MenuRow), rows.get? i = some r →
        jsTrim r.id = r.id → r.id ≠ "" →
        ∃ r', (ensureRowIds rows).get? i = some r' ∧ r'.id = r.id) := by
  intro rows
  constructor
  · exact ensureRowIdsGo_idem rows _ _
  · intro i r hget htrim hne
    refine ⟨_, ensureRowIdsGo_get? rows _ i r hget, ?_⟩
    have hnz : jsTrim r.id ≠ "" := by rw [htrim]; exact hne
    simp only [mkEnsuredRow]
    rw [if_pos hnz, htrim]

theorem ensureRowIds_idempotent_witness :
    ensureRowIds (ensureRowIds [⟨"keep-1", "Cat", "Item", some 3, none⟩])
        = ensureRowIds [⟨"keep-1", "Cat", "Item", some 3, none⟩] ∧
      ∃ r', (ensureRowIds [⟨"keep-1", "Cat", "Item", some 3, none⟩]).get? 0 = some r' ∧
        r'.id = "keep-1" := by
  obtain ⟨h1, h2⟩ := ensureRowIds_idempotent [⟨"keep-1", "Cat", "Item", some 3, none⟩]
  exact ⟨h1, h2 0 ⟨"keep-1", "Cat", "Item", some 3, none⟩ rfl (by decide) (by decide)⟩

/-- C5: a row at position `i` lacking an explicit non-empty id receives the
synthesized id `slug(group) + "-" + slug(name) + "-" + n`, where `n` is one
more than the number of earlier rows with the same normalized group — the
1-based per-group counter in row order (`slugify` itself lowercases,
collapses runs of non-alphanumeric characters to one hyphen, strips edge
hyphens and falls back to the token `item`). -/
theorem ensureRowIds_synthesized_id :
    ∀ (rows : List MenuRow) (i : Nat) (r : MenuRow),
      rows.get? i = some r → jsTrim r.id = "" →
      ∃ r', (ensureRowIds rows).get? i = some r' ∧
        r'.id = synthId (normalizeCategory r.category) (jsTrim r.name)
          (countCat (rows.take i) (normalizeCategory r.category) + 1) := by
  intro rows i r hget hid
  exact ensureRowIds_synth_id rows i r hget hid

theorem ensureRowIds_synthesized_id_witness :
    ∃ r', (ensureRowIds [⟨"", "Desserts", "Cake", some 1, none⟩,
        ⟨"", "Desserts", "Pie", some 2, none⟩]).get? 1 = some r' ∧
      r'.id = synthId (normalizeCategory "Desserts") (jsTrim "Pie")
        (countCat ([⟨"", "Desserts", "Cake", some 1, none⟩,
          ⟨"", "Desserts", "Pie", some 2, none⟩].take 1) (normalizeCategory "Desserts") + 1) :=
  ensureRowIds_synthesized_id
    [⟨"", "Desserts", "Cake", some 1, none⟩, ⟨"", "Desserts", "Pie", some 2, none⟩]
    1 ⟨"", "Desserts", "Pie", some 2, none⟩ rfl (by decide)

/-- C6 counterexample: `ensureRowIds` does not make ids unique — rows of
the distinct groups `a` and `a b` with names `b c` and `c` both synthesize
the id `a-b-c-1` because the group/name slugs merge after hyphenation. -/
theorem ensureRowIds_duplicate_ids_counterexample :
    ¬ List.Nodup ((ensureRowIds
        [⟨"", "a", "b c", some 1, none⟩, ⟨"", "a b", "c", some 1, none⟩]).map
          (fun r => r.id)) := by decide

/-- C6 amended: uniqueness holds only per group for synthesized ids — two
rows without explicit ids sharing the same normalized group always receive
distinct synthesized ids (their per-group counters differ); uniqueness is
not enforced for explicit ids or across groups. -/
theorem ensureRowIds_synth_unique_within_group :
    ∀ (rows : List MenuRow) (i j : Nat) (ri rj ri' rj' : MenuRow),
      i < j → rows.get? i = some ri → rows.get? j = some rj →
      jsTrim ri.id = "" → jsTrim rj.id = "" →
      normalizeCategory ri.category = normalizeCategory rj.category →
      (ensureRowIds rows).get? i = some ri' →
      (ensureRowIds rows).get? j = some rj' →
      ri'.id ≠ rj'.id := by
  intro rows i j ri rj ri' rj' hij hi hj hidi hidj hcat hi' hj'
  obtain ⟨r1, hget1, hid1⟩ := ensureRowIds_synth_id rows i ri hi hidi
  obtain ⟨r2, hget2, hid2⟩ := ensureRowIds_synth_id rows j rj hj hidj
  rw [hi'] at hget1
  rw [hj'] at hget2
  injection hget1 with hr1
  injection hget2 with hr2
  subst hr1
  subst hr2
  rw [hid1, hid2, ← hcat]
  apply synthId_ne_of_ne
  have := countCat_lt_of_get? rows i j ri hij hi
  omega

theorem ensureRowIds_synth_unique_within_group_witness :
    ("desserts-cake-1" : String) ≠ "desserts-pie-2" :=
  ensureRowIds_synth_unique_within_group
    [⟨"", "Desserts", "Cake", some 1, none⟩, ⟨"", "Desserts", "Pie", some 2, none⟩]
    0 1 ⟨"", "Desserts", "Cake", some 1, none⟩ ⟨"", "Desserts", "Pie", some 2, none⟩
    ⟨"desserts-cake-1", "Desserts", "Cake", some 1, none⟩
    ⟨"desserts-pie-2", "Desserts", "Pie", some 2, none⟩
    (by omega) rfl rfl (by decide) (by decide) rfl (by decide) (by decide)

/-- C2 counterexample: negative finite prices are not rejected — the price
cell `-5` parses to `-5`, and a row priced `-5` neither is dropped by the
row validator nor blocks `saveMenu`: the save succeeds and the persistence
payload carries the negative price. -/
theorem negative_price_reaches_payload_counterexample :
    parsePrice "-5" = some (-5) ∧
    saveMenu [⟨"x", "Drinks", "Cola", some (-5), none⟩]
      = .ok [⟨"Drinks", [⟨"x", "Cola", some (-5), none⟩]⟩] ∧
    ((-5 : ℚ) < 0) := by
  refine ⟨by decide, by decide, by decide⟩

/-- C2 amended: only finiteness of prices is enforced before persistence —
a non-finite price blocks the manual save, every price in a successful
save payload is finite, and file import only keeps rows whose price cell
parsed; non-negativity is never checked, so finite negative prices pass
through (see the counterexample). -/
theorem price_finiteness_enforced :
    ∀ (rows : List MenuRow) (cats : List MenuCategory) (fields : List String)
      (data : List Record) (out : List MenuRow × List MenuCategory),
      ((∃ r ∈ rows, r.price = none) →
        saveMenu rows = .error "Please fix menu items (name and price required).") ∧
      (saveMenu rows = .ok cats → ∀ c ∈ cats, ∀ it ∈ c.items, it.price ≠ none) ∧
      (importMenuCsv fields data = .ok out → ∀ r ∈ out.1, r.price ≠ none) := by
  intro rows cats fields data out
  refine ⟨?_, ?_, ?_⟩
  · rintro ⟨r, hr, hp⟩
    have hany : rows.any (fun row => !validRow row) = true :=
      List.any_eq_true.mpr ⟨r, hr, by simp [validRow, hp]⟩
    simp only [saveMenu, if_pos hany]
  · intro h c hc it hit
    simp only [saveMenu] at h
    by_cases h1 : rows.any (fun row => !validRow row) = true
    · rw [if_pos h1] at h; simp at h
    · rw [if_neg h1] at h
      by_cases h2 : rowsToCategories (ensureRowIds rows) = []
      · rw [if_pos h2] at h; simp at h
      · rw [if_neg h2] at h
        injection h with h
        subst h
        exact rowsToCategories_price_finite _ c hc it hit
  · intro h r hr
    simp only [importMenuCsv] at h
    by_cases h1 : (["item_name", "price"] : List String).filter
        (fun hd => !(fields.map normalizeHeader).contains hd) ≠ []
    · rw [if_pos h1] at h; simp at h
    · rw [if_neg h1] at h
      by_cases h2 : data.flatMap (rowOfRecord (mkFieldMap fields)) = []
      · rw [if_pos h2] at h; simp at h
      · rw [if_neg h2] at h
        injection h with h
        subst h
        refine ensureRowIdsGo_price_pred _ _ ?_ r hr
        intro r0 hr0
        rcases List.mem_flatMap.mp hr0 with ⟨rec, _, hmem⟩
        exact (rowOfRecord_shape _ rec r0 hmem).1

theorem price_finiteness_enforced_witness :
    saveMenu [⟨"x", "Drinks", "Cola", some 9, none⟩]
        = .ok [⟨"Drinks", [⟨"x", "Cola", some 9, none⟩]⟩] ∧
      ∀ c ∈ [(⟨"Drinks", [⟨"x", "Cola", some 9, none⟩]⟩ : MenuCategory)],
        ∀ it ∈ c.items, it.price ≠ none :=
  ⟨by decide,
    (price_finiteness_enforced [⟨"x", "Drinks", "Cola", some 9, none⟩]
      [⟨"Drinks", [⟨"x", "Cola", some 9, none⟩]⟩] [] []
      ([], [])).2.1 (by decide)⟩

/-- C3 counterexample: the round trip is not the identity on raw text
fields — a valid row whose name carries surrounding whitespace comes back
with the trimmed name, so the set of raw (name, price, description) triples
differs from the input's. -/
theorem roundTrip_raw_counterexample :
    (categoriesToRows (rowsToCategories
        [⟨"id1", "Cat", " Foo ", some 5, none⟩])).map rawFields
      = [("Foo", some 5, none)] ∧
    ([⟨"id1", "Cat", " Foo ", some 5, none⟩] : List MenuRow).map rawFields
      = [(" Foo ", some 5, none)] ∧
    ("Foo" : String) ≠ " Foo " := by decide

/-- C3 amended: for every non-empty list of valid rows (non-empty trimmed
name, finite price) with pairwise-distinct (normalized group, trimmed name)
pairs, flattening the grouped projection back to rows yields the same
multiset of (name, price, description) triples as the input once text
fields are compared after the projector's own normalization (trimmed name,
trimmed-or-absent description), independent of the input ids. -/
theorem roundTrip_normalized :
    ∀ rows : List MenuRow, rows ≠ [] →
      (∀ r ∈ rows, validRow r = true) →
      (rows.map (fun r => (normalizeCategory r.category, jsTrim r.name))).Nodup →
      ((categoriesToRows (rowsToCategories rows)).map normFields).Perm
        (rows.map normFields) := by
  intro rows _ hval _
  rw [categoriesToRows_normFields]
  rw [show rowsToCategories rows
    = (rowsToCategoriesGo [] rows).map (fun p => (⟨p.1, p.2⟩ : MenuCategory)) from rfl]
  rw [flatMap_items_accItems]
  have h1 := rowsToCategoriesGo_accItems rows []
  rw [List.filter_eq_self.mpr hval] at h1
  have h3 := h1.map
    (fun it : MenuItem => (jsTrim it.name, it.price, normDesc (normDesc it.description)))
  refine h3.trans (List.Perm.of_eq ?_)
  show (([] ++ rows.map rowEntry).map
    (fun it : MenuItem => (jsTrim it.name, it.price, normDesc (normDesc it.description))))
      = rows.map normFields
  rw [List.nil_append, List.map_map]
  apply List.map_congr_left
  intro r _
  show (jsTrim (jsTrim r.name), r.price, normDesc (normDesc (normDesc r.description)))
    = (jsTrim r.name, r.price, normDesc r.description)
  rw [jsTrim_idem, normDesc_idem, normDesc_idem]

theorem roundTrip_normalized_witness :
    (([⟨"x", "Cat", "Foo", some 5, none⟩, ⟨"", "cat two", "Bar", some 7, some "d"⟩]
        : List MenuRow) ≠ []) ∧
      (∀ r ∈ ([⟨"x", "Cat", "Foo", some 5, none⟩,
        ⟨"", "cat two", "Bar", some 7, some "d"⟩] : List MenuRow), validRow r = true) ∧
      (([⟨"x", "Cat", "Foo", some 5, none⟩, ⟨"", "cat two", "Bar", some 7, some "d"⟩]
          : List MenuRow).map
        (fun r => (normalizeCategory r.category, jsTrim r.name))).Nodup ∧
      ((categoriesToRows (rowsToCategories
          [⟨"x", "Cat", "Foo", some 5, none⟩,
            ⟨"", "cat two", "Bar", some 7, some "d"⟩])).map normFields).Perm
        (([⟨"x", "Cat", "Foo", some 5, none⟩,
          ⟨"", "cat two", "Bar", some 7, some "d"⟩] : List MenuRow).map normFields) :=
  ⟨by decide, by decide, by decide,
    roundTrip_normalized
      [⟨"x", "Cat", "Foo", some 5, none⟩, ⟨"", "cat two", "Bar", some 7, some "d"⟩]
      (by decide) (by decide) (by decide)⟩

/-- C7: once the required columns are present (no structural error), the
CSV import fails with the error `No valid rows found in the file.` exactly
when every record is silently dropped by per-row validation (empty
normalized name or unparseable price), and a successful import never
installs an empty row list or an empty catalog. -/
theorem import_fails_iff_no_valid_rows :
    ∀ (fields : List String) (data : List Record),
      "item_name" ∈ fields.map normalizeHeader →
      "price" ∈ fields.map normalizeHeader →
      (importMenuCsv fields data = .error "No valid rows found in the file."
        ↔ ∀ rec ∈ data, rowOfRecord (mkFieldMap fields) rec = []) ∧
      (∀ out, importMenuCsv fields data = .ok out → out.1 ≠ [] ∧ out.2 ≠ []) := by
  intro fields data h1 h2
  have hmiss : (["item_name", "price"] : List String).filter
      (fun hd => !(fields.map normalizeHeader).contains hd) = [] := by
    rw [List.filter_eq_nil_iff]
    intro a ha
    simp only [List.mem_cons, List.not_mem_nil, or_false] at ha
    rcases ha with rfl | rfl
    · simp [h1]
    · simp [h2]
  constructor
  · constructor
    · intro herr
      simp only [importMenuCsv] at herr
      rw [if_neg (fun hne => hne hmiss)] at herr
      by_cases hflat : data.flatMap (rowOfRecord (mkFieldMap fields)) = []
      · exact List.flatMap_eq_nil_iff.mp hflat
      · rw [if_neg hflat] at herr
        simp at herr
    · intro hall
      have hflat : data.flatMap (rowOfRecord (mkFieldMap fields)) = [] :=
        List.flatMap_eq_nil_iff.mpr hall
      simp only [importMenuCsv]
      rw [if_neg (fun hne => hne hmiss), if_pos hflat]
  · intro out hout
    simp only [importMenuCsv] at hout
    rw [if_neg (fun hne => hne hmiss)] at hout
    by_cases hflat : data.flatMap (rowOfRecord (mkFieldMap fields)) = []
    · rw [if_pos hflat] at hout
      simp at hout
    · rw [if_neg hflat] at hout
      injection hout with hout
      subst hout
      refine ⟨?_, ?_⟩
      · show ensureRowIds (data.flatMap (rowOfRecord (mkFieldMap fields))) ≠ []
        intro hnil
        have hlen := congrArg List.length hnil
        simp only [ensureRowIds] at hlen
        rw [ensureRowIdsGo_length] at hlen
        exact hflat (List.length_eq_zero.mp hlen)
      · show rowsToCategories (ensureRowIds
          (data.flatMap (rowOfRecord (mkFieldMap fields)))) ≠ []
        set rows := data.flatMap (rowOfRecord (mkFieldMap fields)) with hrowsdef
        obtain ⟨r0, rest, hrows⟩ : ∃ r0 rest, rows = r0 :: rest := by
          cases hr : rows with
          | nil => exact absurd hr hflat
          | cons a l => exact ⟨a, l, rfl⟩
        have hvalid0 : validRow r0 = true := by
          have hmem : r0 ∈ rows := by rw [hrows]; exact List.mem_cons_self _ _
          rw [hrowsdef] at hmem
          rcases List.mem_flatMap.mp hmem with ⟨rec, _, hmemrec⟩
          exact rowOfRecord_valid _ rec r0 hmemrec
        intro hnil
        have hmem1 : mkEnsuredRow r0 1 ∈ ensureRowIds rows := by
          rw [hrows]
          exact List.mem_cons_self _ _
        have hval1 : validRow (mkEnsuredRow r0 1) = true := by
          rw [validRow_mkEnsuredRow]; exact hvalid0
        have hin : rowEntry (mkEnsuredRow r0 1) ∈ validEntriesFor (ensureRowIds rows)
            (normalizeCategory (mkEnsuredRow r0 1).category) :=
          List.mem_map_of_mem rowEntry (List.mem_filter_of_mem hmem1 (by simp [hval1]))
        rw [← groupItems_rowsToCategories, hnil] at hin
        simp [groupItems] at hin

theorem import_fails_iff_no_valid_rows_witness :
    ("item_name" ∈ (["Item_Name", "Price"] : List String).map normalizeHeader) ∧
      ("price" ∈ (["Item_Name", "Price"] : List String).map normalizeHeader) ∧
      ((importMenuCsv ["Item_Name", "Price"] [[("Item_Name", ""), ("Price", "450")]]
          = .error "No valid rows found in the file."
        ↔ ∀ rec ∈ [[("Item_Name", ""), ("Price", "450")]],
            rowOfRecord (mkFieldMap ["Item_Name", "Price"]) rec = []) ∧
       (∀ out, importMenuCsv ["Item_Name", "Price"] [[("Item_Name", ""), ("Price", "450")]]
          = .ok out → out.1 ≠ [] ∧ out.2 ≠ [])) :=
  ⟨by decide, by decide,
    import_fails_iff_no_valid_rows ["Item_Name", "Price"]
      [[("Item_Name", ""), ("Price", "450")]] (by decide) (by decide)⟩

/-- C8 counterexample: wrong-typed input does not always degrade to an
empty catalog without raising — an array whose element is JSON `null`
takes the flat branch and then throws a TypeError on member access
(`it.id` with `it` null) instead of producing a catalog. -/
theorem applyMenuJson_null_element_counterexample :
    applyMenuJson (.arr [.null]) = .error () ∧
    (Except.error () : Except Unit (List MenuCategory)) ≠ .ok [] := by
  exact ⟨by decide, by decide⟩

/-- C8 amended: the loader branches by probing the first array element's
`items` member for truthiness — a truthy probe maps every element as a
group, a falsy probe maps the whole array through the flat item loader and
wraps the surviving valid items in the single sentinel group (or none when
no item survives), and `null` or non-array input yields the empty catalog
without raising; however array elements that are JSON `null` raise a
TypeError rather than degrading (see the counterexample). -/
theorem applyMenuJson_branching :
    ∀ (x : JValue) (xs : List JValue) (v : JValue) (items : List MenuItem),
      (truthy (jGetOpt x "items") = true →
        applyMenuJson (.arr (x :: xs)) = (x :: xs).mapM loadGroup) ∧
      (truthy (jGetOpt x "items") = false → loadItems (x :: xs) = .ok items →
        applyMenuJson (.arr (x :: xs))
          = .ok (if items ≠ [] then [⟨"Uncategorized", items⟩] else [])) ∧
      ((∀ l, v ≠ .arr l) → applyMenuJson v = .ok []) := by
  intro x xs v items
  refine ⟨?_, ?_, ?_⟩
  · intro h
    simp only [applyMenuJson, h, if_true]
  · intro h hitems
    simp only [applyMenuJson, h, Bool.false_eq_true, if_false, hitems]
    rfl
  · intro h
    cases v with
    | arr l => exact absurd rfl (h l)
    | null => rfl
    | bool b => rfl
    | num q => rfl
    | str s => rfl
    | obj fs => rfl

theorem applyMenuJson_branching_witness :
    truthy (jGetOpt (JValue.obj [("name", .str "G"), ("items", .arr [])]) "items") = true ∧
    applyMenuJson (.arr [JValue.obj [("name", .str "G"), ("items", .arr [])]])
      = ([JValue.obj [("name", .str "G"), ("items", .arr [])]] : List JValue).mapM loadGroup ∧
    applyMenuJson (.num 3) = .ok [] :=
  ⟨by decide,
    (applyMenuJson_branching (JValue.obj [("name", .str "G"), ("items", .arr [])])
      [] (.num 3) []).1 (by decide),
    (applyMenuJson_branching (JValue.obj [("name", .str "G"), ("items", .arr [])])
      [] (.num 3) []).2.2 (fun l h => JValue.noConfusion h)⟩

lemma runDeletes_mem (rid : String) (gateErr : String → List String → Option String) :
    ∀ (groups : List (String × List String)) (store st : List ZoneRow) (z : ZoneRow),
      z ∈ store →
      (∀ p ∈ groups, ¬(z.restaurant_id = rid ∧ z.city = p.1 ∧ z.zone_name ∈ p.2)) →
      runDeletes rid gateErr groups store = .ok st → z ∈ st := by
  intro groups
  induction groups with
  | nil =>
    intro store st z hz _ hrun
    simp only [runDeletes] at hrun
    injection hrun with hrun
    rw [← hrun]
    exact hz
  | cons g rest ih =>
    obtain ⟨city, names⟩ := g
    intro store st z hz hno hrun
    simp only [runDeletes] at hrun
    cases hge : gateErr city names with
    | some msg => rw [hge] at hrun; simp at hrun
    | none =>
      rw [hge] at hrun
      refine ih _ st z ?_ ?_ hrun
      · unfold deleteScoped
        refine List.mem_filter_of_mem hz ?_
        have hprop := hno (city, names) (List.mem_cons_self _ _)
        by_cases h1 : z.restaurant_id = rid
        · by_cases h2 : z.city = city
          · have h3 : z.zone_name ∉ names := fun hm => hprop ⟨h1, h2, hm⟩
            simp [h1, h2, h3]
          · simp [h1, h2]
        · simp [h1]
      · intro p hp
        exact hno p (List.mem_cons_of_mem _ hp)

/-- C9: the zone safe-replace save only deletes rows matching the
restaurant id, an incoming city, and a zone name in that city's incoming
name list — every stored zone of another restaurant, of a city absent from
the batch, or of a batch city but with a name outside that city's name
list, is still present after a successful save. -/
theorem zones_group_isolation :
    ∀ (store : List ZoneRow) (rid : String)
      (gateErr : String → List String → Option String) (rows : List ZoneRow)
      (z : ZoneRow) (st : List ZoneRow),
      z ∈ store →
      (∀ p ∈ zonesByCity rows,
        ¬(z.restaurant_id = rid ∧ z.city = p.1 ∧ z.zone_name ∈ p.2)) →
      postDeliveryZones store rid gateErr rows = .ok st →
      z ∈ st := by
  intro store rid gateErr rows z st hz hno hpost
  unfold postDeliveryZones at hpost
  cases hrun : runDeletes rid gateErr (zonesByCity rows) store with
  | error msg => rw [hrun] at hpost; simp at hpost
  | ok st' =>
    rw [hrun] at hpost
    injection hpost with hpost
    rw [← hpost]
    exact List.mem_append_left _ (runDeletes_mem rid gateErr _ store st' z hz hno hrun)

theorem zones_group_isolation_witness :
    ((⟨"r1", "Islamabad", "F-6", 100, 0, true⟩ : ZoneRow) ∈
        ([⟨"r1", "Islamabad", "F-6", 100, 0, true⟩,
          ⟨"r1", "Karachi", "Clifton", 150, 0, true⟩,
          ⟨"r1", "Karachi", "Gulshan", 120, 0, true⟩] : List ZoneRow)) ∧
      ((⟨"r1", "Islamabad", "F-6", 100, 0, true⟩ : ZoneRow) ∈
        ([⟨"r1", "Islamabad", "F-6", 100, 0, true⟩,
          ⟨"r1", "Karachi", "Clifton", 150, 0, true⟩] : List ZoneRow) ++
          [⟨"r1", "Karachi", "Gulshan", 90, 500, true⟩,
            ⟨"r1", "Karachi", "DHA", 110, 500, true⟩]) ∧
      ((⟨"r1", "Karachi", "Clifton", 150, 0, true⟩ : ZoneRow) ∈
        ([⟨"r1", "Islamabad", "F-6", 100, 0, true⟩,
          ⟨"r1", "Karachi", "Clifton", 150, 0, true⟩] : List ZoneRow) ++
          [⟨"r1", "Karachi", "Gulshan", 90, 500, true⟩,
            ⟨"r1", "Karachi", "DHA", 110, 500, true⟩]) := by
  refine ⟨by decide, ?_, ?_⟩
  · exact zones_group_isolation
      [⟨"r1", "Islamabad", "F-6", 100, 0, true⟩,
        ⟨"r1", "Karachi", "Clifton", 150, 0, true⟩,
        ⟨"r1", "Karachi", "Gulshan", 120, 0, true⟩]
      "r1" (fun _ _ => none)
      [⟨"r1", "Karachi", "Gulshan", 90, 500, true⟩, ⟨"r1", "Karachi", "DHA", 110, 500, true⟩]
      ⟨"r1", "Islamabad", "F-6", 100, 0, true⟩ _
      (by decide) (by decide) (by decide)
  · exact zones_group_isolation
      [⟨"r1", "Islamabad", "F-6", 100, 0, true⟩,
        ⟨"r1", "Karachi", "Clifton", 150, 0, true⟩,
        ⟨"r1", "Karachi", "Gulshan", 120, 0, true⟩]
      "r1" (fun _ _ => none)
      [⟨"r1", "Karachi", "Gulshan", 90, 500, true⟩, ⟨"r1", "Karachi", "DHA", 110, 500, true⟩]
      ⟨"r1", "Karachi", "Clifton", 150, 0, true⟩ _
      (by decide) (by decide) (by decide)

/-- C10 counterexample: when a per-city delete fails, the surfaced error is
the gateway's own message verbatim — it does not report which city group
failed: a batch for city `Karachi` failing with gateway message
`permission denied` surfaces exactly `permission denied`, which does not
mention `Karachi`. -/
theorem zones_error_no_city_counterexample :
    postDeliveryZones [] "r1" (fun _ _ => some "permission denied")
        [⟨"r1", "Karachi", "Gulshan", 100, 0, true⟩]
      = .error "permission denied" ∧
    mentions "permission denied" "Karachi" = false := by
  exact ⟨by decide, by decide⟩

lemma runDeletes_error_at (rid : String)
    (gateErr : String → List String → Option String) (city : String)
    (names : List String) (msg : String) (hfail : gateErr city names = some msg) :
    ∀ (pre : List (String × List String)) (post : List (String × List String))
      (store : List ZoneRow),
      (∀ p ∈ pre, gateErr p.1 p.2 = none) →
      runDeletes rid gateErr (pre ++ (city, names) :: post) store = .error msg := by
  intro pre
  induction pre with
  | nil =>
    intro post store _
    simp only [List.nil_append, runDeletes, hfail]
  | cons g rest ih =>
    obtain ⟨c, ns⟩ := g
    intro post store hok
    have hg : gateErr c ns = none := hok (c, ns) (List.mem_cons_self _ _)
    simp only [List.cons_append, runDeletes, hg]
    exact ih post _ (fun p hp => hok p (List.mem_cons_of_mem _ hp))

/-- C10 amended: a failure partway through the per-city delete loop aborts
the save at that city and surfaces the gateway's error message verbatim to
the caller (never a generic message, and no insert happens) — but the
message is the gateway's own and does not identify the failing city group
(see the counterexample). -/
theorem zones_error_propagates_verbatim :
    ∀ (store : List ZoneRow) (rid : String)
      (gateErr : String → List String → Option String) (rows : List ZoneRow)
      (pre post : List (String × List String)) (city : String)
      (names : List String) (msg : String),
      zonesByCity rows = pre ++ (city, names) :: post →
      (∀ p ∈ pre, gateErr p.1 p.2 = none) →
      gateErr city names = some msg →
      postDeliveryZones store rid gateErr rows = .error msg := by
  intro store rid gateErr rows pre post city names msg hsplit hok hfail
  unfold postDeliveryZones
  rw [hsplit, runDeletes_error_at rid gateErr city names msg hfail pre post store hok]

theorem zones_error_propagates_verbatim_witness :
    postDeliveryZones [] "r1"
        (fun c _ => if c = "Lahore" then some "boom" else none)
        [⟨"r1", "Karachi", "Gulshan", 100, 0, true⟩,
          ⟨"r1", "Lahore", "Johar", 100, 0, true⟩]
      = .error "boom" :=
  zones_error_propagates_verbatim [] "r1"
    (fun c _ => if c = "Lahore" then some "boom" else none)
    [⟨"r1", "Karachi", "Gulshan", 100, 0, true⟩, ⟨"r1", "Lahore", "Johar", 100, 0, true⟩]
    [("Karachi", ["Gulshan"])] [] "Lahore" ["Johar"] "boom"
    (by decide) (by decide) (by decide)

end Dashboard
